import Mathlib

/-!
Verification development for the toolchain-management module of the rye
repository (src/rye/src/cli/toolchain.rs).

The module maintains a registry of Python toolchains under canonical,
version-keyed filesystem paths.  We shallowly embed the data model and the
three operations the claims are about:

* `register_toolchain` (toolchain.rs lines 174-243): introspect a candidate
  interpreter, derive a version key, check for conflicts, and link the
  target path to the candidate (with a plain-file fallback on Windows);
* `remove` (lines 106-119): delete the file or directory at a key's
  canonical path, or report "not installed";
* `list` (lines 132-172): merge the installed map with the downloadable
  catalog and sort for presentation.

External collaborators that are not part of this repository's sources
(`PythonVersion` from `crate::sources`, `get_canonical_py_path` and
`list_known_toolchains` from `crate::platform`, `symlink_file` from
`crate::utils`, the OS filesystem, and the subprocess runner) are either
taken as parameters or modelled from the specification, as marked in the
doc comments below.  Machine integers do not occur in the embedded code
paths; versions are natural numbers.
-/

namespace RyeToolchain

/-! ### Generic ordering comparators

The Rust code sorts with `sort_by_cached_key` on the key
`(path.is_none(), version.kind.to_string(), Reverse((version, path)))`,
which compares tuples lexicographically using the derived `Ord` instances
of `bool`, `String`, `Option` and `PathBuf`.  We embed that with explicit
`Ordering`-valued comparators.  Rust string comparison is bytewise
lexicographic on UTF-8, which agrees with lexicographic comparison of
Unicode code points, so we compare character lists by `Char.toNat`. -/

def natCmp (a b : Nat) : Ordering :=
  if a < b then .lt else if a = b then .eq else .gt

def charCmp (a b : Char) : Ordering :=
  natCmp a.toNat b.toNat

def listCmp (c : α → α → Ordering) : List α → List α → Ordering
  | [], [] => .eq
  | [], _ :: _ => .lt
  | _ :: _, [] => .gt
  | a :: as, b :: bs => (c a b).then (listCmp c as bs)

def strCmp (a b : String) : Ordering :=
  listCmp charCmp a.data b.data

def optCmp (c : α → α → Ordering) : Option α → Option α → Ordering
  | none, none => .eq
  | none, some _ => .lt
  | some _, none => .gt
  | some a, some b => c a b

def boolCmp (a b : Bool) : Ordering :=
  natCmp (cond a 1 0) (cond b 1 0)

/-! ### The version key (spec section 4.1)

Modelled from the spec: the `PythonVersion` type lives in `crate::sources`,
outside this repository's sources.  The spec describes it as the identity
string `name@version` where the version is the dotted version reported by
the interpreter; parsing fails when the `@` separator is missing or the
version segment is not well-formed, `format(parse(s)) = s` holds for valid
keys, and ordering is by name ascending then version descending (the
descending part is produced by the `Reverse` in the sort key, so the
underlying derived order on `PythonVersion` is ascending and
lexicographic). -/

structure PyVer where
  major : Nat
  minor : Nat
  patch : Nat
deriving DecidableEq, Repr

structure PythonVersion where
  kind : String
  ver : PyVer
deriving DecidableEq, Repr

/-- Modelled from the spec: canonical rendering of the dotted version. -/
def PyVer.str (v : PyVer) : String :=
  Nat.repr v.major ++ "." ++ Nat.repr v.minor ++ "." ++ Nat.repr v.patch

/-- Modelled from the spec: the canonical round-trip string of a key. -/
def PythonVersion.str (t : PythonVersion) : String :=
  t.kind ++ "@" ++ t.ver.str

/-- Split a character list at the first occurrence of `sep`, like Rust's
`str::split_once`. -/
def splitAtSep (sep : Char) : List Char → Option (List Char × List Char)
  | [] => none
  | c :: rest =>
    if c = sep then some ([], rest)
    else
      match splitAtSep sep rest with
      | some (a, b) => some (c :: a, b)
      | none => none

def digitVal (c : Char) : Option Nat :=
  if 48 ≤ c.toNat ∧ c.toNat ≤ 57 then some (c.toNat - 48) else none

def parseDigitsAux (acc : Nat) : List Char → Option Nat
  | [] => some acc
  | c :: rest =>
    match digitVal c with
    | some d => parseDigitsAux (acc * 10 + d) rest
    | none => none

/-- Modelled from the spec: a well-formed numeric version segment is a
canonically written decimal number (the spec postulates
`format(parse(s)) = s` for every valid key string). -/
def parseCanonNat (l : List Char) : Option Nat :=
  match l with
  | [] => none
  | _ :: _ =>
    match parseDigitsAux 0 l with
    | some n => if (Nat.repr n).data = l then some n else none
    | none => none

/-- Modelled from the spec: the dotted `major.minor.patch` version
segment. -/
def parsePyVer (l : List Char) : Option PyVer :=
  match splitAtSep '.' l with
  | some (a, rest) =>
    match splitAtSep '.' rest with
    | some (b, c) =>
      match parseCanonNat a, parseCanonNat b, parseCanonNat c with
      | some major, some minor, some patch => some ⟨major, minor, patch⟩
      | _, _, _ => none
    | none => none
  | none => none

/-- Modelled from the spec: `parse` fails when the `@` separator is
missing or the version segment is not well-formed (spec section 4.1). -/
def PythonVersion.parse (s : String) : Option PythonVersion :=
  match splitAtSep '@' s.data with
  | some (n, v) =>
    match parsePyVer v with
    | some pv => some { kind := String.mk n, ver := pv }
    | none => none
  | none => none

/-! ### Interpreter introspection (toolchain.rs lines 19-35, 182-192) -/

/-- The three fields of `InspectInfo` (toolchain.rs lines 30-35). -/
structure InspectInfo where
  python_implementation : String
  python_version : String
  python_debug : Bool
deriving DecidableEq, Repr

/-- JSON documents, as far as the introspection output shape needs.
Numbers are integers here; no numeric field is ever accepted by the
deserializer, so the numeric payload type is irrelevant. -/
inductive Json where
  | null
  | bool (b : Bool)
  | num (n : Int)
  | str (s : String)
  | arr (items : List Json)
  | obj (fields : List (String × Json))

/-- Field lookup of the derived serde deserializer: a known field must
occur exactly once (a duplicate occurrence of a known field is a
deserialization error, and a missing one as well). -/
def getField (fields : List (String × Json)) (key : String) : Option Json :=
  match fields.filter (fun e => decide (e.1 = key)) with
  | [e] => some e.2
  | _ => none

/-- The deserializer derived for `InspectInfo` (toolchain.rs lines 30-35).
`#[derive(Deserialize)]` without `deny_unknown_fields` accepts any JSON
object that binds each declared field exactly once to a value of the
declared type; fields with unknown names are skipped. -/
def deserialize_inspect_info : Json → Option InspectInfo
  | .obj fields =>
    match getField fields "python_implementation" with
    | some (.str impl) =>
      match getField fields "python_version" with
      | some (.str ver) =>
        match getField fields "python_debug" with
        | some (.bool dbg) =>
          some { python_implementation := impl, python_version := ver, python_debug := dbg }
        | _ => none
      | _ => none
    | _ => none
  | _ => none

/-- Captured output of the introspection subprocess (toolchain.rs lines
182-186).  `success` is the exit status; `stdout` is the captured standard
output, given as `some j` when the bytes parse as the JSON document `j`
and `none` when they are not valid JSON (the textual JSON lexer of
`serde_json` is external to this repository). -/
structure CmdOutput where
  success : Bool
  stdout : Option Json

/-! ### Filesystem model

A filesystem state is a finite association list from paths (component
lists, as in Rust's `Path`) to nodes: regular files with string contents,
directories, and symbolic links.  `Path::is_file` and `Path::is_dir`
follow symbolic links, so occupancy tests resolve links with fuel; a
dangling or cyclic link resolves to nothing, exactly as the OS reports
false for both tests on such paths. -/

abbrev FsPath := List String

inductive FsNode where
  | file (contents : String)
  | dir
  | symlink (target : FsPath)
deriving DecidableEq, Repr

abbrev Fs := List (FsPath × FsNode)

def fsFind : Fs → FsPath → Option FsNode
  | [], _ => none
  | e :: rest, p => if e.1 = p then some e.2 else fsFind rest p

def fsResolve (fs : Fs) : Nat → FsPath → Option FsNode
  | 0, _ => none
  | fuel + 1, p =>
    match fsFind fs p with
    | some (.symlink t) => fsResolve fs fuel t
    | o => o

/-- `Path::is_file`: the path resolves, through symlinks, to a regular
file. -/
def fsIsFile (fs : Fs) (p : FsPath) : Bool :=
  match fsResolve fs (fs.length + 1) p with
  | some (.file _) => true
  | _ => false

/-- `Path::is_dir`: the path resolves, through symlinks, to a directory. -/
def fsIsDir (fs : Fs) (p : FsPath) : Bool :=
  match fsResolve fs (fs.length + 1) p with
  | some .dir => true
  | _ => false

/-- `fs::remove_file`: delete the entry at the path itself (a symlink is
removed, not followed). -/
def fsRemoveFile (fs : Fs) (p : FsPath) : Fs :=
  fs.filter (fun e => decide (e.1 ≠ p))

/-- `p` is a path prefix of `q` (so `q` lies at or under `p`). -/
def pathUnder : FsPath → FsPath → Bool
  | [], _ => true
  | _ :: _, [] => false
  | a :: as, b :: bs => decide (a = b) && pathUnder as bs

/-- `fs::remove_dir_all`: delete the entry at the path together with the
whole subtree below it. -/
def fsRemoveDirAll (fs : Fs) (p : FsPath) : Fs :=
  fs.filter (fun e => !pathUnder p e.1)

/-- The proper, nonempty path prefixes of `p`: the parent of `p` and the
parent's ancestors. -/
def strictAncestors (p : FsPath) : List FsPath :=
  (List.range p.length).filterMap (fun k => if k = 0 then none else some (p.take k))

/-- `fs::create_dir_all(target.parent())`: create every missing ancestor
directory of `target` (best effort; the caller ignores failures, and an
ancestor already occupied by a non-directory entry is left alone). -/
def fsCreateDirAll (fs : Fs) (target : FsPath) : Fs :=
  (strictAncestors target).foldl
    (fun acc d => if fsFind acc d = none then acc ++ [(d, FsNode.dir)] else acc) fs

/-- `fs::write`: create or truncate the regular file at `p`. -/
def fsWrite (fs : Fs) (p : FsPath) (contents : String) : Fs :=
  fs.filter (fun e => decide (e.1 ≠ p)) ++ [(p, FsNode.file contents)]

/-- `crate::utils::symlink_file` (external to this repository): creating a
symbolic link fails when the link path is already occupied by any entry
(the OS reports "already exists", even for a dangling symlink), or when
the environment refuses it (`priv_fail`, e.g. missing privilege on
Windows); otherwise the link node is created. -/
def symlink_file (fs : Fs) (priv_fail : Bool) (src dst : FsPath) : Option Fs :=
  if priv_fail then none
  else if (fsFind fs dst).isSome then none
  else some (fs ++ [(dst, FsNode.symlink src)])

/-! ### `remove` (toolchain.rs lines 106-119) -/

inductive RemoveOutcome where
  | removedLink
  | removedDir
  | notInstalled
deriving DecidableEq, Repr

/-- `remove` (toolchain.rs lines 106-119), after the version argument has
been parsed: resolve the canonical path; delete a regular file outright,
delete a directory recursively, and otherwise print "Toolchain is not
installed" and succeed.  All three branches return `Ok(())`. -/
def remove (fs : Fs) (get_canonical_py_path : PythonVersion → FsPath)
    (ver : PythonVersion) : Fs × RemoveOutcome :=
  let path := get_canonical_py_path ver
  if fsIsFile fs path then (fsRemoveFile fs path, .removedLink)
  else if fsIsDir fs path then (fsRemoveDirAll fs path, .removedDir)
  else (fs, .notInstalled)

/-! ### `register_toolchain` (toolchain.rs lines 174-243) -/

inductive RegError where
  | execError
  | notValidPython
  | parseError
  | keyParseError
  | validationError
  | conflict (target : FsPath)
  | linkError
deriving DecidableEq, Repr

/-- The key string built at toolchain.rs lines 193-203: `name@version`
when a name was supplied, else
`lowercased-implementation[-dbg]@version`. -/
def asciiLowerChar (c : Char) : Char :=
  if 65 ≤ c.toNat ∧ c.toNat ≤ 90 then Char.ofNat (c.toNat + 32) else c

def to_ascii_lowercase (s : String) : String :=
  String.mk (s.data.map asciiLowerChar)

def derive_target_version (name : Option String) (info : InspectInfo) : String :=
  match name with
  | some n => n ++ "@" ++ info.python_version
  | none =>
    to_ascii_lowercase info.python_implementation ++
      (if info.python_debug then "-dbg" else "") ++ "@" ++ info.python_version

/-- The failure-sensitive steps of `register_toolchain` before any
filesystem mutation (toolchain.rs lines 182-212): run the interpreter
(`run_output = none` models a spawn failure), require a successful exit,
deserialize stdout, derive and parse the key, run the validation callback,
and check that the canonical target path is unoccupied. -/
def register_toolchain_common (fs : Fs) (run_output : Option CmdOutput)
    (name : Option String) (validate : PythonVersion → Bool)
    (get_canonical_py_path : PythonVersion → FsPath) :
    Except RegError (PythonVersion × FsPath) :=
  match run_output with
  | none => .error .execError
  | some output =>
    if output.success = false then .error .notValidPython
    else
      match output.stdout.bind deserialize_inspect_info with
      | none => .error .parseError
      | some info =>
        match PythonVersion.parse (derive_target_version name info) with
        | none => .error .keyParseError
        | some target_version =>
          if validate target_version = false then .error .validationError
          else
            let target := get_canonical_py_path target_version
            if fsIsFile fs target || fsIsDir fs target then .error (.conflict target)
            else .ok (target_version, target)

/-- `register_toolchain` under `#[cfg(unix)]` (toolchain.rs lines 174-223,
242): after the checks, best-effort creation of the target's parent
directories, then a symlink that must succeed. -/
def register_toolchain_unix (fs : Fs) (path : FsPath) (run_output : Option CmdOutput)
    (name : Option String) (validate : PythonVersion → Bool)
    (get_canonical_py_path : PythonVersion → FsPath) (symlink_priv_fail : Bool) :
    Fs × Except RegError PythonVersion :=
  match register_toolchain_common fs run_output name validate get_canonical_py_path with
  | .error e => (fs, .error e)
  | .ok (target_version, target) =>
    let fs1 := fsCreateDirAll fs target
    match symlink_file fs1 symlink_priv_fail path target with
    | some fs2 => (fs2, .ok target_version)
    | none => (fs1, .error .linkError)

/-- `register_toolchain` under `#[cfg(windows)]` (toolchain.rs lines
174-217, 229-242): like unix, but a failed symlink falls back to writing
the candidate path into a plain text file at the target (`write_ok`
models whether that write succeeds); paths are unicode strings in this
model, so the non-unicode bail at line 236 cannot trigger. -/
def register_toolchain_windows (fs : Fs) (path : FsPath) (run_output : Option CmdOutput)
    (name : Option String) (validate : PythonVersion → Bool)
    (get_canonical_py_path : PythonVersion → FsPath) (symlink_priv_fail : Bool)
    (write_ok : Bool) : Fs × Except RegError PythonVersion :=
  match register_toolchain_common fs run_output name validate get_canonical_py_path with
  | .error e => (fs, .error e)
  | .ok (target_version, target) =>
    let fs1 := fsCreateDirAll fs target
    match symlink_file fs1 symlink_priv_fail path target with
    | some fs2 => (fs2, .ok target_version)
    | none =>
      if write_ok then (fsWrite fs1 target (String.intercalate "/" path), .ok target_version)
      else (fs1, .error .linkError)

/-! ### `list` (toolchain.rs lines 121-172) -/

abbrev ToolchainEntry := PythonVersion × Option FsPath

/-- `HashMap` insertion, as used by `collect::<HashMap<_, _>>` at
toolchain.rs line 136: a later binding of the same key replaces the
earlier one.  The map is represented as an association list with distinct
keys; its order stands for one arbitrary iteration order, which theorem
`list_order_independent_of_iteration` below proves irrelevant. -/
def hashmap_insert (m : List ToolchainEntry) (k : PythonVersion) (v : Option FsPath) :
    List ToolchainEntry :=
  if m.any (fun e => decide (e.1 = k)) then
    m.map (fun e => if e.1 = k then (k, v) else e)
  else m ++ [(k, v)]

/-- `toolchains.entry(version).or_insert(None)` at toolchain.rs line 140:
insert the key with no path unless it is already present. -/
def entry_or_insert (m : List ToolchainEntry) (k : PythonVersion) : List ToolchainEntry :=
  if m.any (fun e => decide (e.1 = k)) then m else m ++ [(k, none)]

/-- The merged collection of toolchain.rs lines 133-142: the installed map
(key to path), then, when downloadable toolchains are included, each
catalog key that is not already present with no path. -/
def toolchains_merged (installed : List (PythonVersion × FsPath))
    (downloadable : List PythonVersion) (include_downloadable : Bool) :
    List ToolchainEntry :=
  let base := installed.foldl (fun m e => hashmap_insert m e.1 (some e.2)) []
  if include_downloadable then
    downloadable.foldl (fun m v => entry_or_insert m v) base
  else base

/-- The sort key comparison of toolchain.rs line 145:
`(a.1.is_none(), a.0.kind.to_string(), Reverse(a.clone()))`, compared
lexicographically; the reversed component compares the whole
`(PythonVersion, Option<PathBuf>)` pair with the derived ascending orders
and flips the result. -/
def verCmp (x y : PyVer) : Ordering :=
  (natCmp x.major y.major).then
    ((natCmp x.minor y.minor).then (natCmp x.patch y.patch))

def pvCmp (a b : PythonVersion) : Ordering :=
  (strCmp a.kind b.kind).then (verCmp a.ver b.ver)

def pathCmp (a b : FsPath) : Ordering :=
  listCmp strCmp a b

def pairCmp (a b : ToolchainEntry) : Ordering :=
  (pvCmp a.1 b.1).then (optCmp pathCmp a.2 b.2)

def entryCmp (a b : ToolchainEntry) : Ordering :=
  (boolCmp a.2.isNone b.2.isNone).then
    ((strCmp a.1.kind b.1.kind).then (pairCmp b a))

def entryLe (a b : ToolchainEntry) : Bool :=
  (entryCmp a b).isLE

/-- The sorted presentation sequence produced by `list`
(toolchain.rs lines 144-145). -/
def list_toolchains (installed : List (PythonVersion × FsPath))
    (downloadable : List PythonVersion) (include_downloadable : Bool) :
    List ToolchainEntry :=
  (toolchains_merged installed downloadable include_downloadable).mergeSort entryLe

/-- The machine-readable record of toolchain.rs lines 123-130;
`serde(skip_serializing_if = Option::is_none)` means a field is present in
the output object exactly when it is `some` here. -/
structure ListVersion where
  name : PythonVersion
  path : Option String
  downloadable : Option Bool
deriving DecidableEq, Repr

/-- The record construction of toolchain.rs lines 150-154. -/
def to_list_version (e : ToolchainEntry) : ListVersion :=
  { name := e.1
    downloadable := if e.2.isNone then some true else none
    path := e.2.map (String.intercalate "/") }

/-- The machine-readable output sequence of `list --format=json`
(toolchain.rs lines 147-156). -/
def list_json (installed : List (PythonVersion × FsPath))
    (downloadable : List PythonVersion) (include_downloadable : Bool) :
    List ListVersion :=
  (list_toolchains installed downloadable include_downloadable).map to_list_version

/-! ### Lemmas about `Ordering` and lawful comparators -/

theorem then_eq_eq {o p : Ordering} : o.then p = .eq ↔ o = .eq ∧ p = .eq := by
  cases o <;> simp [Ordering.then]

theorem then_eq_lt {o p : Ordering} : o.then p = .lt ↔ o = .lt ∨ (o = .eq ∧ p = .lt) := by
  cases o <;> simp [Ordering.then]

theorem then_swap {o p : Ordering} : (o.then p).swap = o.swap.then p.swap := by
  cases o <;> simp [Ordering.then, Ordering.swap]

theorem swap_eq_eq {o : Ordering} : o.swap = .eq ↔ o = .eq := by
  cases o <;> simp [Ordering.swap]

theorem swap_eq_lt {o : Ordering} : o.swap = .lt ↔ o = .gt := by
  cases o <;> simp [Ordering.swap]

theorem isLE_iff {o : Ordering} : o.isLE = true ↔ o = .lt ∨ o = .eq := by
  cases o <;> simp [Ordering.isLE]

/-- A lawful comparator: it decides equality, it is antisymmetric under
argument swap, and its strict part is transitive.  These are the
properties of a derived `Ord` implementation of a total order in Rust. -/
structure LawCmp (c : α → α → Ordering) : Prop where
  eq_iff : ∀ a b, c a b = .eq ↔ a = b
  swap_eq : ∀ a b, (c a b).swap = c b a
  lt_trans : ∀ a b d, c a b = .lt → c b d = .lt → c a d = .lt

theorem LawCmp.refl {c : α → α → Ordering} (h : LawCmp c) (a : α) : c a a = .eq :=
  (h.eq_iff a a).mpr rfl

theorem LawCmp.gt_iff {c : α → α → Ordering} (h : LawCmp c) (a b : α) :
    c a b = .gt ↔ c b a = .lt := by
  constructor
  · intro hg
    have := h.swap_eq a b
    rw [hg] at this
    exact this.symm
  · intro hl
    have hs := h.swap_eq b a
    rw [hl] at hs
    exact hs.symm

theorem natCmp_lt_iff {a b : Nat} : natCmp a b = .lt ↔ a < b := by
  unfold natCmp
  split_ifs with h1 h2
  · exact iff_of_true rfl h1
  · exact iff_of_false (by simp) h1
  · exact iff_of_false (by simp) h1

theorem natCmp_eq_iff {a b : Nat} : natCmp a b = .eq ↔ a = b := by
  unfold natCmp
  split_ifs with h1 h2
  · exact iff_of_false (by simp) (by omega)
  · exact iff_of_true rfl h2
  · exact iff_of_false (by simp) h2

theorem natCmp_gt_iff {a b : Nat} : natCmp a b = .gt ↔ b < a := by
  unfold natCmp
  split_ifs with h1 h2
  · exact iff_of_false (by simp) (by omega)
  · exact iff_of_false (by simp) (by omega)
  · exact iff_of_true rfl (by omega)

theorem lawCmp_natCmp : LawCmp natCmp := by
  refine ⟨?_, ?_, ?_⟩
  · intro a b
    exact natCmp_eq_iff
  · intro a b
    rcases Nat.lt_trichotomy a b with h | h | h
    · rw [natCmp_lt_iff.mpr h, natCmp_gt_iff.mpr h]
      rfl
    · rw [natCmp_eq_iff.mpr h, natCmp_eq_iff.mpr h.symm]
      rfl
    · rw [natCmp_gt_iff.mpr h, natCmp_lt_iff.mpr h]
      rfl
  · intro a b d h1 h2
    rw [natCmp_lt_iff] at h1 h2 ⊢
    omega

theorem LawCmp.pull {c : β → β → Ordering} (h : LawCmp c) {f : α → β}
    (hf : Function.Injective f) : LawCmp (fun a b => c (f a) (f b)) := by
  refine ⟨?_, ?_, ?_⟩
  · intro a b
    simp only [h.eq_iff]
    exact ⟨fun hh => hf hh, fun hh => by rw [hh]⟩
  · intro a b
    exact h.swap_eq (f a) (f b)
  · intro a b d h1 h2
    exact h.lt_trans _ _ _ h1 h2

theorem char_toNat_injective : Function.Injective Char.toNat := by
  intro a b h
  exact Char.ext (UInt32.ext h)

theorem lawCmp_charCmp : LawCmp charCmp :=
  lawCmp_natCmp.pull char_toNat_injective

theorem lawCmp_listCmp {c : α → α → Ordering} (hc : LawCmp c) : LawCmp (listCmp c) := by
  refine ⟨?_, ?_, ?_⟩
  · intro a
    induction a with
    | nil => intro b; cases b <;> simp [listCmp]
    | cons x xs ih =>
      intro b
      cases b with
      | nil => simp [listCmp]
      | cons y ys =>
        simp only [listCmp, then_eq_eq, hc.eq_iff, ih ys, List.cons.injEq]
  · intro a
    induction a with
    | nil => intro b; cases b <;> simp [listCmp, Ordering.swap]
    | cons x xs ih =>
      intro b
      cases b with
      | nil => simp [listCmp, Ordering.swap]
      | cons y ys => simp only [listCmp, then_swap, hc.swap_eq, ih ys]
  · intro a
    induction a with
    | nil =>
      intro b d h1 h2
      cases b <;> cases d <;> simp_all [listCmp]
    | cons x xs ih =>
      intro b d h1 h2
      cases b with
      | nil => simp [listCmp] at h1
      | cons y ys =>
        cases d with
        | nil => simp [listCmp] at h2
        | cons z zs =>
          simp only [listCmp, then_eq_lt, hc.eq_iff] at h1 h2 ⊢
          rcases h1 with h1 | ⟨rfl, h1⟩
          · rcases h2 with h2 | ⟨rfl, h2⟩
            · exact Or.inl (hc.lt_trans _ _ _ h1 h2)
            · exact Or.inl h1
          · rcases h2 with h2 | ⟨rfl, h2⟩
            · exact Or.inl h2
            · exact Or.inr ⟨rfl, ih _ _ h1 h2⟩

theorem string_data_injective : Function.Injective String.data := by
  intro a b h
  cases a
  cases b
  exact congrArg String.mk h

theorem lawCmp_strCmp : LawCmp strCmp :=
  (lawCmp_listCmp lawCmp_charCmp).pull string_data_injective

theorem lawCmp_optCmp {c : α → α → Ordering} (hc : LawCmp c) : LawCmp (optCmp c) := by
  refine ⟨?_, ?_, ?_⟩
  · intro a b
    cases a <;> cases b <;> simp [optCmp, hc.eq_iff]
  · intro a b
    cases a <;> cases b
    · rfl
    · rfl
    · rfl
    · exact hc.swap_eq _ _
  · intro a b d h1 h2
    cases a <;> cases b <;> cases d <;> simp_all [optCmp]
    exact hc.lt_trans _ _ _ h1 h2

theorem lawCmp_boolCmp : LawCmp boolCmp := by
  have : Function.Injective (fun b : Bool => cond b 1 0) := by
    intro a b h
    cases a <;> cases b <;> simp_all
  exact lawCmp_natCmp.pull this

/-- Lexicographic composition: a comparator that first compares an
arbitrary projection with a lawful comparator and breaks ties with a
lawful comparator on the values themselves is lawful. -/
theorem LawCmp.thenPull {c1 : β → β → Ordering} {c2 : α → α → Ordering} {f : α → β}
    (h1 : LawCmp c1) (h2 : LawCmp c2) :
    LawCmp (fun a b => (c1 (f a) (f b)).then (c2 a b)) := by
  refine ⟨?_, ?_, ?_⟩
  · intro a b
    simp only [then_eq_eq, h1.eq_iff, h2.eq_iff]
    exact ⟨fun hh => hh.2, fun hh => ⟨by rw [hh], hh⟩⟩
  · intro a b
    simp only [then_swap, h1.swap_eq, h2.swap_eq]
  · intro a b d hab hbd
    simp only [then_eq_lt, h1.eq_iff, h2.eq_iff] at hab hbd ⊢
    rcases hab with hab | ⟨hfe, hab⟩
    · rcases hbd with hbd | ⟨hfe, hbd⟩
      · exact Or.inl (h1.lt_trans _ _ _ hab hbd)
      · exact Or.inl (by rw [← hfe]; exact hab)
    · rcases hbd with hbd | ⟨hfe2, hbd⟩
      · exact Or.inl (by rw [hfe]; exact hbd)
      · exact Or.inr ⟨hfe.trans hfe2, h2.lt_trans _ _ _ hab hbd⟩

theorem LawCmp.flip {c : α → α → Ordering} (h : LawCmp c) :
    LawCmp (fun a b => c b a) := by
  refine ⟨?_, ?_, ?_⟩
  · intro a b
    rw [h.eq_iff]
    exact ⟨fun hh => hh.symm, fun hh => hh.symm⟩
  · intro a b
    exact h.swap_eq b a
  · intro a b d h1 h2
    exact h.lt_trans _ _ _ h2 h1

/-- A comparator on pairs that compares the first components and breaks
ties on the second components is lawful when both component comparators
are. -/
theorem LawCmp.prod {c1 : α → α → Ordering} {c2 : β → β → Ordering}
    (h1 : LawCmp c1) (h2 : LawCmp c2) :
    LawCmp (fun (a b : α × β) => (c1 a.1 b.1).then (c2 a.2 b.2)) := by
  refine ⟨?_, ?_, ?_⟩
  · intro a b
    simp only [then_eq_eq, h1.eq_iff, h2.eq_iff, Prod.ext_iff]
  · intro a b
    simp only [then_swap, h1.swap_eq, h2.swap_eq]
  · intro a b d hab hbd
    simp only [then_eq_lt, h1.eq_iff, h2.eq_iff] at hab hbd ⊢
    rcases hab with hab | ⟨hfe, hab⟩
    · rcases hbd with hbd | ⟨hfe, hbd⟩
      · exact Or.inl (h1.lt_trans _ _ _ hab hbd)
      · exact Or.inl (by rw [← hfe]; exact hab)
    · rcases hbd with hbd | ⟨hfe2, hbd⟩
      · exact Or.inl (by rw [hfe]; exact hbd)
      · exact Or.inr ⟨hfe.trans hfe2, h2.lt_trans _ _ _ hab hbd⟩

theorem lawCmp_verCmp : LawCmp verCmp := by
  have key_inj : Function.Injective (fun v : PyVer => (v.major, v.minor, v.patch)) := by
    intro x y h
    cases x
    cases y
    simp_all
  exact ((lawCmp_natCmp.prod (lawCmp_natCmp.prod lawCmp_natCmp)).pull key_inj :
    LawCmp (fun _ _ => _))

theorem lawCmp_pvCmp : LawCmp pvCmp := by
  have key_inj : Function.Injective (fun v : PythonVersion => (v.kind, v.ver)) := by
    intro x y h
    cases x
    cases y
    simp_all
  exact ((lawCmp_strCmp.prod lawCmp_verCmp).pull key_inj : LawCmp (fun _ _ => _))

theorem lawCmp_pathCmp : LawCmp pathCmp :=
  lawCmp_listCmp lawCmp_strCmp

theorem lawCmp_pairCmp : LawCmp pairCmp :=
  (lawCmp_pvCmp.prod (lawCmp_optCmp lawCmp_pathCmp) : LawCmp (fun _ _ => _))

theorem lawCmp_entryCmp : LawCmp entryCmp :=
  (lawCmp_boolCmp.thenPull (lawCmp_strCmp.thenPull lawCmp_pairCmp.flip) :
    LawCmp (fun _ _ => _))

/-! ### Sorting facts derived from lawfulness -/

theorem LawCmp.isLE_trans {c : α → α → Ordering} (h : LawCmp c) (a b d : α)
    (h1 : (c a b).isLE = true) (h2 : (c b d).isLE = true) : (c a d).isLE = true := by
  rw [isLE_iff] at h1 h2 ⊢
  rcases h1 with h1 | h1
  · rcases h2 with h2 | h2
    · exact Or.inl (h.lt_trans _ _ _ h1 h2)
    · rw [h.eq_iff] at h2
      rw [← h2]
      exact Or.inl h1
  · rw [h.eq_iff] at h1
    rw [h1]
    exact h2.imp id id

theorem LawCmp.isLE_total {c : α → α → Ordering} (h : LawCmp c) (a b : α) :
    ((c a b).isLE || (c b a).isLE) = true := by
  cases hc : c a b
  · simp [Ordering.isLE]
  · simp [Ordering.isLE]
  · have : c b a = .lt := (h.gt_iff a b).mp hc
    simp [this, Ordering.isLE]

theorem LawCmp.isLE_antisymm {c : α → α → Ordering} (h : LawCmp c) (a b : α)
    (h1 : (c a b).isLE = true) (h2 : (c b a).isLE = true) : a = b := by
  rw [isLE_iff] at h1 h2
  rcases h1 with h1 | h1
  · exfalso
    have : c b a = .gt := by
      have hs := h.swap_eq a b
      rw [h1] at hs
      exact hs.symm
    rcases h2 with h2 | h2 <;> rw [this] at h2 <;> cases h2
  · exact (h.eq_iff a b).mp h1

theorem entryLe_trans (a b d : ToolchainEntry) (h1 : entryLe a b = true)
    (h2 : entryLe b d = true) : entryLe a d = true :=
  lawCmp_entryCmp.isLE_trans a b d h1 h2

theorem entryLe_total (a b : ToolchainEntry) : (entryLe a b || entryLe b a) = true :=
  lawCmp_entryCmp.isLE_total a b

theorem entryLe_antisymm (a b : ToolchainEntry) (h1 : entryLe a b = true)
    (h2 : entryLe b a = true) : a = b :=
  lawCmp_entryCmp.isLE_antisymm a b h1 h2

/-- Sorting with the key of toolchain.rs line 145 is insensitive to the
order in which the merged collection is traversed: any two iteration
orders of the same multiset of entries sort to the same sequence. -/
theorem mergeSort_entryLe_perm_congr {l1 l2 : List ToolchainEntry} (hp : l1.Perm l2) :
    l1.mergeSort entryLe = l2.mergeSort entryLe := by
  have hperm : (l1.mergeSort entryLe).Perm (l2.mergeSort entryLe) :=
    ((List.mergeSort_perm l1 entryLe).trans hp).trans (List.mergeSort_perm l2 entryLe).symm
  have hs1 := List.sorted_mergeSort entryLe_trans entryLe_total l1
  have hs2 := List.sorted_mergeSort entryLe_trans entryLe_total l2
  exact @List.eq_of_perm_of_sorted _ (fun a b => entryLe a b = true)
    ⟨entryLe_antisymm⟩ _ _ hperm hs1 hs2

/-- A concrete sorted list is the unique sort result of any of its
permutations. -/
theorem mergeSort_entryLe_eq_of_sorted {l e : List ToolchainEntry} (hp : l.Perm e)
    (hs : e.Pairwise (fun a b => entryLe a b = true)) : l.mergeSort entryLe = e := by
  have hperm : (l.mergeSort entryLe).Perm e := (List.mergeSort_perm l entryLe).trans hp
  have hs1 := List.sorted_mergeSort entryLe_trans entryLe_total l
  exact @List.eq_of_perm_of_sorted _ (fun a b => entryLe a b = true)
    ⟨entryLe_antisymm⟩ _ _ hperm hs1 hs

/-! ### The presentation order stated by the spec

`spec_before a b` is the order the spec describes for the `list`
presentation: installed entries before obtainable ones, and within a
group name ascending, then version descending. -/

def verLt (x y : PyVer) : Prop :=
  x.major < y.major
    ∨ (x.major = y.major ∧ (x.minor < y.minor
        ∨ (x.minor = y.minor ∧ x.patch < y.patch)))

def strLt (a b : String) : Prop :=
  strCmp a b = .lt

def spec_before (a b : ToolchainEntry) : Prop :=
  (a.2.isSome = true ∧ b.2 = none)
    ∨ (a.2.isNone = b.2.isNone
        ∧ (strLt a.1.kind b.1.kind
            ∨ (a.1.kind = b.1.kind ∧ verLt b.1.ver a.1.ver)))

theorem verCmp_lt_iff {x y : PyVer} : verCmp x y = .lt ↔ verLt x y := by
  unfold verCmp verLt
  simp only [then_eq_lt, natCmp_lt_iff, natCmp_eq_iff]

/-- The sort key of toolchain.rs line 145 refines the presentation order
stated by the spec on entries with distinct keys. -/
theorem entryLe_of_ne_spec_before {a b : ToolchainEntry} (hle : entryLe a b = true)
    (hne : a.1 ≠ b.1) : spec_before a b := by
  unfold entryLe entryCmp at hle
  rw [isLE_iff] at hle
  cases hb : boolCmp a.2.isNone b.2.isNone with
  | lt =>
    left
    have hlt : cond a.2.isNone 1 0 < cond b.2.isNone 1 0 := natCmp_lt_iff.mp hb
    cases hv : a.2 with
    | none =>
      exfalso
      cases hw : b.2 <;> rw [hv, hw] at hlt <;> simp at hlt
    | some x =>
      cases hw : b.2 with
      | none =>
        constructor
        · rfl
        · rfl
      | some y =>
        exfalso
        rw [hv, hw] at hlt
        simp at hlt
  | gt =>
    exfalso
    rw [hb] at hle
    rcases hle with hle | hle <;> simp [Ordering.then] at hle
  | eq =>
    right
    have hbe : cond a.2.isNone 1 0 = cond b.2.isNone 1 0 := natCmp_eq_iff.mp hb
    have hbn : a.2.isNone = b.2.isNone := by
      cases ha2 : a.2.isNone <;> cases hb2 : b.2.isNone <;>
        rw [ha2, hb2] at hbe <;> simp_all
    refine ⟨hbn, ?_⟩
    rw [hb] at hle
    simp only [Ordering.then] at hle
    cases hk : strCmp a.1.kind b.1.kind with
    | lt => exact Or.inl hk
    | gt =>
      exfalso
      rw [hk] at hle
      rcases hle with hle | hle <;> simp [Ordering.then] at hle
    | eq =>
      right
      have hke : a.1.kind = b.1.kind := (lawCmp_strCmp.eq_iff _ _).mp hk
      refine ⟨hke, ?_⟩
      rw [hk] at hle
      simp only [Ordering.then] at hle
      rcases hle with hpair | hpair
      · unfold pairCmp at hpair
        rw [then_eq_lt] at hpair
        rcases hpair with hpair | ⟨hpv, _⟩
        · unfold pvCmp at hpair
          rw [then_eq_lt] at hpair
          rcases hpair with hpair | ⟨_, hver⟩
          · exfalso
            rw [hke] at hpair
            rw [lawCmp_strCmp.refl] at hpair
            cases hpair
          · exact verCmp_lt_iff.mp hver
        · exfalso
          exact hne ((lawCmp_pvCmp.eq_iff _ _).mp hpv).symm
      · exfalso
        have := (lawCmp_pairCmp.eq_iff _ _).mp hpair
        exact hne (congrArg Prod.fst this).symm

/-! ### Filesystem lemmas -/

theorem fsFind_append_of_some (l1 l2 : Fs) (p : FsPath) (n : FsNode)
    (h : fsFind l1 p = some n) : fsFind (l1 ++ l2) p = some n := by
  induction l1 with
  | nil => cases h
  | cons e rest ih =>
    rw [List.cons_append]
    unfold fsFind at h ⊢
    by_cases he : e.1 = p
    · rw [if_pos he] at h ⊢
      exact h
    · rw [if_neg he] at h ⊢
      exact ih h

theorem fsFind_append_of_none (l1 l2 : Fs) (p : FsPath)
    (h : fsFind l1 p = none) : fsFind (l1 ++ l2) p = fsFind l2 p := by
  induction l1 with
  | nil => rfl
  | cons e rest ih =>
    rw [List.cons_append]
    unfold fsFind at h
    by_cases he : e.1 = p
    · rw [if_pos he] at h
      cases h
    · rw [if_neg he] at h
      show (if e.1 = p then some e.2 else fsFind (rest ++ l2) p) = fsFind l2 p
      rw [if_neg he]
      exact ih h

theorem fsFind_filter_not_self (fs : Fs) (p : FsPath) (pred : FsPath × FsNode → Bool)
    (h : ∀ e, pred e = true → e.1 ≠ p) : fsFind (fs.filter pred) p = none := by
  induction fs with
  | nil => rfl
  | cons e rest ih =>
    by_cases hp : pred e = true
    · rw [List.filter_cons_of_pos hp]
      unfold fsFind
      rw [if_neg (h e hp)]
      exact ih
    · rw [List.filter_cons_of_neg (Bool.not_eq_true _ ▸ hp)]
      exact ih

theorem fsFind_fsRemoveFile_self (fs : Fs) (p : FsPath) :
    fsFind (fsRemoveFile fs p) p = none := by
  apply fsFind_filter_not_self
  intro e he
  exact of_decide_eq_true he

theorem pathUnder_refl (p : FsPath) : pathUnder p p = true := by
  induction p with
  | nil => rfl
  | cons a rest ih => simp [pathUnder, ih]

theorem fsFind_fsRemoveDirAll_self (fs : Fs) (p : FsPath) :
    fsFind (fsRemoveDirAll fs p) p = none := by
  apply fsFind_filter_not_self
  intro e he hep
  rw [← hep] at he
  rw [pathUnder_refl] at he
  cases he

theorem fsIsFile_of_find_none {fs : Fs} {p : FsPath} (h : fsFind fs p = none) :
    fsIsFile fs p = false := by
  unfold fsIsFile fsResolve
  rw [h]

theorem fsIsDir_of_find_none {fs : Fs} {p : FsPath} (h : fsFind fs p = none) :
    fsIsDir fs p = false := by
  unfold fsIsDir fsResolve
  rw [h]

theorem fs_ne_nil_of_find_some {fs : Fs} {p : FsPath} {n : FsNode}
    (h : fsFind fs p = some n) : fs ≠ [] := by
  intro he
  rw [he] at h
  cases h

/-- A dangling symbolic link resolves to nothing. -/
theorem fsResolve_dangling {fs : Fs} {p t : FsPath}
    (hp : fsFind fs p = some (.symlink t)) (ht : fsFind fs t = none) :
    fsResolve fs (fs.length + 1) p = none := by
  cases fs with
  | nil => cases hp
  | cons e rest =>
    show fsResolve (e :: rest) (rest.length + 1 + 1) p = none
    unfold fsResolve
    rw [hp]
    unfold fsResolve
    rw [ht]

theorem fsIsFile_dangling {fs : Fs} {p t : FsPath}
    (hp : fsFind fs p = some (.symlink t)) (ht : fsFind fs t = none) :
    fsIsFile fs p = false := by
  unfold fsIsFile
  rw [fsResolve_dangling hp ht]

theorem fsIsDir_dangling {fs : Fs} {p t : FsPath}
    (hp : fsFind fs p = some (.symlink t)) (ht : fsFind fs t = none) :
    fsIsDir fs p = false := by
  unfold fsIsDir
  rw [fsResolve_dangling hp ht]

theorem length_lt_of_mem_strictAncestors {d p : FsPath} (h : d ∈ strictAncestors p) :
    d.length < p.length := by
  unfold strictAncestors at h
  rcases List.mem_filterMap.mp h with ⟨k, hk, hf⟩
  rw [List.mem_range] at hk
  by_cases h0 : k = 0
  · rw [h0] at hf
    simp at hf
  · rw [if_neg h0] at hf
    have hd := Option.some.inj hf
    rw [← hd, List.length_take]
    omega

theorem fsFind_foldl_dirs (ds : List FsPath) (fs : Fs) (q : FsPath)
    (h : ∀ d ∈ ds, d ≠ q) :
    fsFind (ds.foldl
      (fun acc d => if fsFind acc d = none then acc ++ [(d, FsNode.dir)] else acc) fs) q
      = fsFind fs q := by
  induction ds generalizing fs with
  | nil => rfl
  | cons d rest ih =>
    rw [List.foldl_cons]
    rw [ih _ (fun x hx => h x (List.mem_cons_of_mem _ hx))]
    by_cases hd : fsFind fs d = none
    · rw [if_pos hd]
      have hdq : d ≠ q := h d (List.mem_cons_self _ _)
      cases hf : fsFind fs q with
      | some n => exact fsFind_append_of_some _ _ _ _ hf
      | none =>
        rw [fsFind_append_of_none _ _ _ hf]
        unfold fsFind
        rw [if_neg hdq]
        rfl
    · rw [if_neg hd]

/-- Creating the missing ancestor directories of `target` does not touch
any path at least as long as `target`; in particular not `target`
itself. -/
theorem fsFind_fsCreateDirAll {fs : Fs} {target q : FsPath}
    (h : target.length ≤ q.length) :
    fsFind (fsCreateDirAll fs target) q = fsFind fs q := by
  unfold fsCreateDirAll
  apply fsFind_foldl_dirs
  intro d hd he
  have := length_lt_of_mem_strictAncestors hd
  rw [he] at this
  omega

theorem fsFind_fsWrite_self (fs : Fs) (p : FsPath) (c : String) :
    fsFind (fsWrite fs p c) p = some (.file c) := by
  unfold fsWrite
  rw [fsFind_append_of_none _ _ _ (fsFind_filter_not_self _ _ _
    (fun e he => of_decide_eq_true he))]
  unfold fsFind
  rw [if_pos rfl]

/-! ### Round-trip lemmas for the version key -/

theorem dot_data : ("." : String).data = ['.'] := rfl

theorem at_data : ("@" : String).data = ['@'] := rfl

theorem mk_data (l : List Char) : (String.mk l).data = l := rfl

theorem splitAtSep_eq {sep : Char} : ∀ {l a b : List Char},
    splitAtSep sep l = some (a, b) → l = a ++ sep :: b := by
  intro l
  induction l with
  | nil =>
    intro a b h
    cases h
  | cons c rest ih =>
    intro a b h
    unfold splitAtSep at h
    by_cases hc : c = sep
    · rw [if_pos hc] at h
      cases h
      rw [hc]
      rfl
    · rw [if_neg hc] at h
      cases hs : splitAtSep sep rest with
      | none =>
        rw [hs] at h
        cases h
      | some ab =>
        obtain ⟨a1, b1⟩ := ab
        rw [hs] at h
        cases h
        rw [ih hs]
        rfl

theorem parseCanonNat_repr {l : List Char} {n : Nat} (h : parseCanonNat l = some n) :
    (Nat.repr n).data = l := by
  cases l with
  | nil => simp [parseCanonNat] at h
  | cons c rest =>
    unfold parseCanonNat at h
    dsimp only at h
    cases hp : parseDigitsAux 0 (c :: rest) with
    | none =>
      rw [hp] at h
      simp at h
    | some m =>
      rw [hp] at h
      dsimp only at h
      by_cases hr : (Nat.repr m).data = c :: rest
      · rw [if_pos hr] at h
        cases h
        exact hr
      · rw [if_neg hr] at h
        cases h

theorem parsePyVer_str {l : List Char} {v : PyVer} (h : parsePyVer l = some v) :
    (PyVer.str v).data = l := by
  unfold parsePyVer at h
  cases h1 : splitAtSep '.' l with
  | none =>
    rw [h1] at h
    simp at h
  | some ar =>
    obtain ⟨a, rest⟩ := ar
    rw [h1] at h
    dsimp only at h
    cases h2 : splitAtSep '.' rest with
    | none =>
      rw [h2] at h
      simp at h
    | some bc =>
      obtain ⟨b, c⟩ := bc
      rw [h2] at h
      dsimp only at h
      cases hma : parseCanonNat a with
      | none =>
        rw [hma] at h
        simp at h
      | some major =>
        cases hmb : parseCanonNat b with
        | none =>
          rw [hma, hmb] at h
          simp at h
        | some minor =>
          cases hmc : parseCanonNat c with
          | none =>
            rw [hma, hmb, hmc] at h
            simp at h
          | some patch =>
            rw [hma, hmb, hmc] at h
            dsimp only at h
            cases h
            have ha := parseCanonNat_repr hma
            have hb := parseCanonNat_repr hmb
            have hc := parseCanonNat_repr hmc
            have hl := splitAtSep_eq h1
            have hr := splitAtSep_eq h2
            rw [hl, hr]
            simp only [PyVer.str, String.data_append, dot_data, ha, hb, hc]
            simp [List.append_assoc]

theorem PythonVersion.parse_str {s : String} {tv : PythonVersion}
    (h : PythonVersion.parse s = some tv) : tv.str = s := by
  unfold PythonVersion.parse at h
  cases h1 : splitAtSep '@' s.data with
  | none =>
    rw [h1] at h
    simp at h
  | some nv =>
    obtain ⟨n, v⟩ := nv
    rw [h1] at h
    dsimp only at h
    cases h2 : parsePyVer v with
    | none =>
      rw [h2] at h
      simp at h
    | some pv =>
      rw [h2] at h
      dsimp only at h
      cases h
      apply string_data_injective
      have hv := parsePyVer_str h2
      have hs := splitAtSep_eq h1
      rw [hs]
      simp only [PythonVersion.str, String.data_append, at_data, mk_data, hv]
      simp [List.append_assoc]

/-! ### Characterization of the introspection output shape -/

/-- The field `key` is bound exactly once in the object, to a JSON
string. -/
def boundOnceStr (fields : List (String × Json)) (key : String) : Prop :=
  ∃ s, fields.filter (fun e => decide (e.1 = key)) = [(key, Json.str s)]

/-- The field `key` is bound exactly once in the object, to a JSON
boolean. -/
def boundOnceBool (fields : List (String × Json)) (key : String) : Prop :=
  ∃ b, fields.filter (fun e => decide (e.1 = key)) = [(key, Json.bool b)]

/-- The introspection output shape the code actually accepts: a JSON
object binding each of the three expected fields exactly once to a value
of the expected type; any further fields are irrelevant. -/
def well_shaped_inspect (j : Json) : Prop :=
  ∃ fields, j = .obj fields
    ∧ boundOnceStr fields "python_implementation"
    ∧ boundOnceStr fields "python_version"
    ∧ boundOnceBool fields "python_debug"

theorem getField_eq_some {fields : List (String × Json)} {key : String} {v : Json}
    (h : getField fields key = some v) :
    fields.filter (fun e => decide (e.1 = key)) = [(key, v)] := by
  unfold getField at h
  cases hf : fields.filter (fun e => decide (e.1 = key)) with
  | nil =>
    rw [hf] at h
    cases h
  | cons e rest =>
    cases rest with
    | nil =>
      rw [hf] at h
      dsimp only at h
      cases h
      have he : e ∈ fields.filter (fun x => decide (x.1 = key)) := by
        rw [hf]
        exact List.mem_cons_self _ _
      have he1 : e.1 = key := of_decide_eq_true (List.mem_filter.mp he).2
      cases e with
      | mk e1 e2 => simp_all
    | cons f rest2 =>
      rw [hf] at h
      cases h

theorem getField_of_filter {fields : List (String × Json)} {key : String} {v : Json}
    (h : fields.filter (fun e => decide (e.1 = key)) = [(key, v)]) :
    getField fields key = some v := by
  unfold getField
  rw [h]

theorem deserialize_obj_isSome_iff {fields : List (String × Json)} :
    (deserialize_inspect_info (.obj fields)).isSome = true ↔
      (boundOnceStr fields "python_implementation"
        ∧ boundOnceStr fields "python_version"
        ∧ boundOnceBool fields "python_debug") := by
  constructor
  · intro h
    unfold deserialize_inspect_info at h
    dsimp only at h
    cases g1 : getField fields "python_implementation" with
    | none =>
      rw [g1] at h
      simp at h
    | some j1 =>
      rw [g1] at h
      cases j1 <;> simp only [Option.isSome] at h <;> try cases h
      rename_i impl
      cases g2 : getField fields "python_version" with
      | none =>
        rw [g2] at h
        simp at h
      | some j2 =>
        rw [g2] at h
        cases j2 <;> simp only [Option.isSome] at h <;> try cases h
        rename_i ver
        cases g3 : getField fields "python_debug" with
        | none =>
          rw [g3] at h
          simp at h
        | some j3 =>
          rw [g3] at h
          cases j3 <;> simp only [Option.isSome] at h <;> try cases h
          rename_i dbg
          exact ⟨⟨impl, getField_eq_some g1⟩, ⟨ver, getField_eq_some g2⟩,
            ⟨dbg, getField_eq_some g3⟩⟩
  · rintro ⟨⟨impl, h1⟩, ⟨ver, h2⟩, ⟨dbg, h3⟩⟩
    unfold deserialize_inspect_info
    dsimp only
    rw [getField_of_filter h1, getField_of_filter h2, getField_of_filter h3]
    rfl

theorem deserialize_isSome_iff {j : Json} :
    (deserialize_inspect_info j).isSome = true ↔ well_shaped_inspect j := by
  cases j with
  | obj fields =>
    rw [deserialize_obj_isSome_iff]
    constructor
    · intro h
      exact ⟨fields, rfl, h⟩
    · rintro ⟨f2, hf, h⟩
      cases hf
      exact h
  | null =>
    apply iff_of_false (by simp [deserialize_inspect_info])
    rintro ⟨f, hf, h⟩
    cases hf
  | bool b =>
    apply iff_of_false (by simp [deserialize_inspect_info])
    rintro ⟨f, hf, h⟩
    cases hf
  | num n =>
    apply iff_of_false (by simp [deserialize_inspect_info])
    rintro ⟨f, hf, h⟩
    cases hf
  | str s =>
    apply iff_of_false (by simp [deserialize_inspect_info])
    rintro ⟨f, hf, h⟩
    cases hf
  | arr items =>
    apply iff_of_false (by simp [deserialize_inspect_info])
    rintro ⟨f, hf, h⟩
    cases hf

/-! ### Lemmas about the merged toolchain map -/

theorem any_key_iff {m : List ToolchainEntry} {k : PythonVersion} :
    (m.any (fun e => decide (e.1 = k)) = true) ↔ k ∈ m.map Prod.fst := by
  simp [List.any_eq_true, List.mem_map]

theorem map_fst_update (m : List ToolchainEntry) (k : PythonVersion)
    (v : Option FsPath) :
    (m.map (fun e => if e.1 = k then (k, v) else e)).map Prod.fst =
      m.map Prod.fst := by
  induction m with
  | nil => rfl
  | cons e rest ih =>
    simp only [List.map_cons, ih]
    congr 1
    by_cases he : e.1 = k
    · rw [if_pos he, he]
    · rw [if_neg he]

theorem keys_hashmap_insert (m : List ToolchainEntry) (k : PythonVersion)
    (v : Option FsPath) :
    (hashmap_insert m k v).map Prod.fst =
      if k ∈ m.map Prod.fst then m.map Prod.fst else m.map Prod.fst ++ [k] := by
  unfold hashmap_insert
  by_cases hk : m.any (fun e => decide (e.1 = k)) = true
  · rw [if_pos hk, if_pos (any_key_iff.mp hk), map_fst_update]
  · rw [if_neg hk, if_neg (fun hm => hk (any_key_iff.mpr hm))]
    simp

theorem nodup_keys_hashmap_insert {m : List ToolchainEntry} {k : PythonVersion}
    {v : Option FsPath} (h : (m.map Prod.fst).Nodup) :
    ((hashmap_insert m k v).map Prod.fst).Nodup := by
  rw [keys_hashmap_insert]
  split_ifs with hk
  · exact h
  · simp [List.nodup_append, h, hk]

theorem keys_entry_or_insert (m : List ToolchainEntry) (k : PythonVersion) :
    (entry_or_insert m k).map Prod.fst =
      if k ∈ m.map Prod.fst then m.map Prod.fst else m.map Prod.fst ++ [k] := by
  unfold entry_or_insert
  by_cases hk : m.any (fun e => decide (e.1 = k)) = true
  · rw [if_pos hk, if_pos (any_key_iff.mp hk)]
  · rw [if_neg hk, if_neg (fun hm => hk (any_key_iff.mpr hm))]
    simp

theorem nodup_keys_entry_or_insert {m : List ToolchainEntry} {k : PythonVersion}
    (h : (m.map Prod.fst).Nodup) :
    ((entry_or_insert m k).map Prod.fst).Nodup := by
  rw [keys_entry_or_insert]
  split_ifs with hk
  · exact h
  · simp [List.nodup_append, h, hk]

theorem nodup_keys_toolchains_merged (installed : List (PythonVersion × FsPath))
    (downloadable : List PythonVersion) (inc : Bool) :
    ((toolchains_merged installed downloadable inc).map Prod.fst).Nodup := by
  unfold toolchains_merged
  have hbase : ∀ (l : List (PythonVersion × FsPath)) (m : List ToolchainEntry),
      (m.map Prod.fst).Nodup →
      ((l.foldl (fun m e => hashmap_insert m e.1 (some e.2)) m).map Prod.fst).Nodup := by
    intro l
    induction l with
    | nil => exact fun m hm => hm
    | cons e rest ih => exact fun m hm => ih _ (nodup_keys_hashmap_insert hm)
  have hdl : ∀ (l : List PythonVersion) (m : List ToolchainEntry),
      (m.map Prod.fst).Nodup →
      ((l.foldl (fun m v => entry_or_insert m v) m).map Prod.fst).Nodup := by
    intro l
    induction l with
    | nil => exact fun m hm => hm
    | cons d rest ih => exact fun m hm => ih _ (nodup_keys_entry_or_insert hm)
  cases inc with
  | false => exact hbase installed [] (by simp)
  | true => exact hdl downloadable _ (hbase installed [] (by simp))

theorem values_some_hashmap_insert {m : List ToolchainEntry} {k : PythonVersion}
    {p : FsPath} (h : ∀ e ∈ m, e.2.isSome = true) :
    ∀ e ∈ hashmap_insert m k (some p), e.2.isSome = true := by
  intro e he
  unfold hashmap_insert at he
  split_ifs at he with hk
  · rcases List.mem_map.mp he with ⟨x, hx, rfl⟩
    by_cases hxx : x.1 = k
    · rw [if_pos hxx]
      rfl
    · rw [if_neg hxx]
      exact h x hx
  · rcases List.mem_append.mp he with he | he
    · exact h e he
    · simp only [List.mem_singleton] at he
      rw [he]
      rfl

theorem values_some_base (installed : List (PythonVersion × FsPath)) :
    ∀ e ∈ installed.foldl (fun m e => hashmap_insert m e.1 (some e.2)) [],
      e.2.isSome = true := by
  have hgen : ∀ (l : List (PythonVersion × FsPath)) (m : List ToolchainEntry),
      (∀ e ∈ m, e.2.isSome = true) →
      ∀ e ∈ l.foldl (fun m e => hashmap_insert m e.1 (some e.2)) m,
        e.2.isSome = true := by
    intro l
    induction l with
    | nil => exact fun m hm => hm
    | cons x rest ih => exact fun m hm => ih _ (values_some_hashmap_insert hm)
  exact hgen installed [] (by simp)

theorem mem_keys_hashmap_insert_self (m : List ToolchainEntry) (k : PythonVersion)
    (v : Option FsPath) : k ∈ (hashmap_insert m k v).map Prod.fst := by
  rw [keys_hashmap_insert]
  split_ifs with hk
  · exact hk
  · simp

theorem mem_keys_hashmap_insert_mono {m : List ToolchainEntry} {x : PythonVersion}
    (k : PythonVersion) (v : Option FsPath) (h : x ∈ m.map Prod.fst) :
    x ∈ (hashmap_insert m k v).map Prod.fst := by
  rw [keys_hashmap_insert]
  split_ifs with hk
  · exact h
  · simp [h]

theorem mem_keys_base {installed : List (PythonVersion × FsPath)} {v : PythonVersion}
    {p : FsPath} (h : (v, p) ∈ installed) :
    v ∈ (installed.foldl (fun m e => hashmap_insert m e.1 (some e.2)) []).map
      Prod.fst := by
  have hgen : ∀ (l : List (PythonVersion × FsPath)) (m : List ToolchainEntry),
      ((v, p) ∈ l ∨ v ∈ m.map Prod.fst) →
      v ∈ (l.foldl (fun m e => hashmap_insert m e.1 (some e.2)) m).map Prod.fst := by
    intro l
    induction l with
    | nil =>
      intro m hm
      rcases hm with hm | hm
      · cases hm
      · exact hm
    | cons x rest ih =>
      intro m hm
      rw [List.foldl_cons]
      rcases hm with hm | hm
      · rcases List.mem_cons.mp hm with hm | hm
        · apply ih
          right
          rw [← hm]
          exact mem_keys_hashmap_insert_self m (v, p).1 (some (v, p).2)
        · exact ih _ (Or.inl hm)
      · exact ih _ (Or.inr (mem_keys_hashmap_insert_mono _ _ hm))
  exact hgen installed [] (Or.inl h)

theorem mem_keys_entry_or_insert_mono {m : List ToolchainEntry} {x : PythonVersion}
    (k : PythonVersion) (h : x ∈ m.map Prod.fst) :
    x ∈ (entry_or_insert m k).map Prod.fst := by
  rw [keys_entry_or_insert]
  split_ifs with hk
  · exact h
  · simp [h]

theorem mem_entry_or_insert {m : List ToolchainEntry} {k : PythonVersion}
    {e : ToolchainEntry} (h : e ∈ entry_or_insert m k) :
    e ∈ m ∨ (e = (k, none) ∧ k ∉ m.map Prod.fst) := by
  unfold entry_or_insert at h
  split_ifs at h with hk
  · exact Or.inl h
  · rcases List.mem_append.mp h with h | h
    · exact Or.inl h
    · right
      simp only [List.mem_singleton] at h
      exact ⟨h, fun hm => hk (any_key_iff.mpr hm)⟩

theorem dl_fold_inv (downloadable : List PythonVersion) (base : List ToolchainEntry) :
    ∀ e ∈ downloadable.foldl (fun m v => entry_or_insert m v) base,
      e ∈ base ∨ (e.2 = none ∧ e.1 ∉ base.map Prod.fst) := by
  induction downloadable generalizing base with
  | nil => exact fun e he => Or.inl he
  | cons d rest ih =>
    intro e he
    rw [List.foldl_cons] at he
    rcases ih (entry_or_insert base d) e he with h | h
    · rcases mem_entry_or_insert h with h | ⟨he2, hk⟩
      · exact Or.inl h
      · right
        rw [he2]
        exact ⟨rfl, hk⟩
    · right
      refine ⟨h.1, fun hb => h.2 ?_⟩
      exact mem_keys_entry_or_insert_mono _ hb

theorem merged_installed_has_path {installed : List (PythonVersion × FsPath)}
    {downloadable : List PythonVersion} {inc : Bool} {v : PythonVersion} {p : FsPath}
    (hin : (v, p) ∈ installed) :
    ∀ e ∈ toolchains_merged installed downloadable inc, e.1 = v →
      e.2.isSome = true := by
  intro e he hv
  unfold toolchains_merged at he
  cases inc with
  | false => exact values_some_base installed e he
  | true =>
    rcases dl_fold_inv downloadable _ e he with h | h
    · exact values_some_base installed e h
    · exfalso
      apply h.2
      rw [hv]
      exact mem_keys_base hin

/-! ### Inversion and computation lemmas for `register_toolchain` -/

theorem common_spawn_fail {fs : Fs} {name : Option String}
    {validate : PythonVersion → Bool} {canon : PythonVersion → FsPath} :
    register_toolchain_common fs none name validate canon = .error .execError := rfl

theorem common_not_success {fs : Fs} {output : CmdOutput} {name : Option String}
    {validate : PythonVersion → Bool} {canon : PythonVersion → FsPath}
    (h : output.success = false) :
    register_toolchain_common fs (some output) name validate canon
      = .error .notValidPython := by
  unfold register_toolchain_common
  dsimp only
  rw [if_pos h]

theorem common_parse_fail {fs : Fs} {output : CmdOutput} {name : Option String}
    {validate : PythonVersion → Bool} {canon : PythonVersion → FsPath}
    (hs : output.success = true)
    (h : output.stdout.bind deserialize_inspect_info = none) :
    register_toolchain_common fs (some output) name validate canon
      = .error .parseError := by
  unfold register_toolchain_common
  dsimp only
  rw [if_neg (by simp [hs]), h]

theorem common_ok_intro {fs : Fs} {output : CmdOutput} {name : Option String}
    {validate : PythonVersion → Bool} {canon : PythonVersion → FsPath}
    {info : InspectInfo} {tv : PythonVersion}
    (hsucc : output.success = true)
    (hinfo : output.stdout.bind deserialize_inspect_info = some info)
    (hparse : PythonVersion.parse (derive_target_version name info) = some tv)
    (hval : validate tv = true)
    (hocc : (fsIsFile fs (canon tv) || fsIsDir fs (canon tv)) = false) :
    register_toolchain_common fs (some output) name validate canon
      = .ok (tv, canon tv) := by
  unfold register_toolchain_common
  dsimp only
  rw [if_neg (by simp [hsucc]), hinfo]
  dsimp only
  rw [hparse]
  dsimp only
  rw [if_neg (by simp [hval]), if_neg (by simp [hocc])]

theorem common_conflict {fs : Fs} {output : CmdOutput} {name : Option String}
    {validate : PythonVersion → Bool} {canon : PythonVersion → FsPath}
    {info : InspectInfo} {tv : PythonVersion}
    (hsucc : output.success = true)
    (hinfo : output.stdout.bind deserialize_inspect_info = some info)
    (hparse : PythonVersion.parse (derive_target_version name info) = some tv)
    (hval : validate tv = true)
    (hocc : (fsIsFile fs (canon tv) || fsIsDir fs (canon tv)) = true) :
    register_toolchain_common fs (some output) name validate canon
      = .error (.conflict (canon tv)) := by
  unfold register_toolchain_common
  dsimp only
  rw [if_neg (by simp [hsucc]), hinfo]
  dsimp only
  rw [hparse]
  dsimp only
  rw [if_neg (by simp [hval]), if_pos hocc]

theorem common_ok_elim {fs : Fs} {run : Option CmdOutput} {name : Option String}
    {validate : PythonVersion → Bool} {canon : PythonVersion → FsPath}
    {tv : PythonVersion} {target : FsPath}
    (h : register_toolchain_common fs run name validate canon = .ok (tv, target)) :
    ∃ output info, run = some output ∧ output.success = true
      ∧ output.stdout.bind deserialize_inspect_info = some info
      ∧ PythonVersion.parse (derive_target_version name info) = some tv
      ∧ validate tv = true ∧ target = canon tv
      ∧ (fsIsFile fs (canon tv) || fsIsDir fs (canon tv)) = false := by
  cases run with
  | none => simp [register_toolchain_common] at h
  | some output =>
    unfold register_toolchain_common at h
    dsimp only at h
    by_cases hs : output.success = false
    · rw [if_pos hs] at h
      cases h
    · rw [if_neg hs] at h
      cases hbind : output.stdout.bind deserialize_inspect_info with
      | none =>
        rw [hbind] at h
        simp at h
      | some info =>
        rw [hbind] at h
        dsimp only at h
        cases hp : PythonVersion.parse (derive_target_version name info) with
        | none =>
          rw [hp] at h
          simp at h
        | some tv2 =>
          rw [hp] at h
          dsimp only at h
          by_cases hv : validate tv2 = false
          · rw [if_pos hv] at h
            cases h
          · rw [if_neg hv] at h
            by_cases hocc : (fsIsFile fs (canon tv2) || fsIsDir fs (canon tv2)) = true
            · rw [if_pos hocc] at h
              cases h
            · rw [if_neg hocc] at h
              cases h
              refine ⟨output, info, rfl, ?_, hbind, hp, ?_, rfl, ?_⟩
              · simp only [Bool.not_eq_false] at hs
                exact hs
              · simp only [Bool.not_eq_false] at hv
                exact hv
              · simp only [Bool.not_eq_true] at hocc
                exact hocc

theorem register_unix_error {fs : Fs} {path : FsPath} {run : Option CmdOutput}
    {name : Option String} {validate : PythonVersion → Bool}
    {canon : PythonVersion → FsPath} {priv : Bool} {e : RegError}
    (h : register_toolchain_common fs run name validate canon = .error e) :
    register_toolchain_unix fs path run name validate canon priv = (fs, .error e) := by
  unfold register_toolchain_unix
  rw [h]

theorem register_windows_error {fs : Fs} {path : FsPath} {run : Option CmdOutput}
    {name : Option String} {validate : PythonVersion → Bool}
    {canon : PythonVersion → FsPath} {priv wok : Bool} {e : RegError}
    (h : register_toolchain_common fs run name validate canon = .error e) :
    register_toolchain_windows fs path run name validate canon priv wok
      = (fs, .error e) := by
  unfold register_toolchain_windows
  rw [h]

theorem register_unix_ok_elim {fs : Fs} {path : FsPath} {run : Option CmdOutput}
    {name : Option String} {validate : PythonVersion → Bool}
    {canon : PythonVersion → FsPath} {priv : Bool} {fs2 : Fs} {tv : PythonVersion}
    (h : register_toolchain_unix fs path run name validate canon priv = (fs2, .ok tv)) :
    ∃ target, register_toolchain_common fs run name validate canon
      = .ok (tv, target) := by
  unfold register_toolchain_unix at h
  cases hc : register_toolchain_common fs run name validate canon with
  | error e =>
    rw [hc] at h
    simp at h
  | ok pair =>
    obtain ⟨tv2, target⟩ := pair
    rw [hc] at h
    dsimp only at h
    cases hsl : symlink_file (fsCreateDirAll fs target) priv path target with
    | some fs3 =>
      rw [hsl] at h
      dsimp only at h
      cases h
      exact ⟨target, rfl⟩
    | none =>
      rw [hsl] at h
      simp at h

/-! ### Claim theorems -/

/-- C1: for every candidate path and optional label, if the canonical
target path computed for the derived `VersionKey` is already occupied by a
file or a directory, `register_toolchain` fails with the "already in use"
conflict error and performs no filesystem mutation, leaving the filesystem
exactly as it was before the call (shown for both the unix and the windows
build of the function). -/
theorem register_conflict_rejects_without_mutation
    (fs : Fs) (path : FsPath) (output : CmdOutput) (name : Option String)
    (validate : PythonVersion → Bool) (canon : PythonVersion → FsPath)
    (priv wok : Bool) (info : InspectInfo) (tv : PythonVersion)
    (hsucc : output.success = true)
    (hinfo : output.stdout.bind deserialize_inspect_info = some info)
    (hparse : PythonVersion.parse (derive_target_version name info) = some tv)
    (hval : validate tv = true)
    (hocc : (fsIsFile fs (canon tv) || fsIsDir fs (canon tv)) = true) :
    register_toolchain_unix fs path (some output) name validate canon priv
        = (fs, .error (.conflict (canon tv)))
      ∧ register_toolchain_windows fs path (some output) name validate canon priv wok
        = (fs, .error (.conflict (canon tv))) := by
  have hc := common_conflict hsucc hinfo hparse hval hocc
  exact ⟨register_unix_error hc, register_windows_error hc⟩

/-- Witness for C1 at a concrete state: the target of `cpython@3.11.4` is
occupied by a directory, so registration fails with the conflict error and
returns the filesystem unchanged, on both platforms. -/
theorem register_conflict_rejects_without_mutation_witness :
    register_toolchain_unix [(["py", "cpython@3.11.4"], FsNode.dir)]
        ["usr", "bin", "python3"]
        (some ⟨true, some (Json.obj [("python_implementation", Json.str "CPython"),
          ("python_version", Json.str "3.11.4"), ("python_debug", Json.bool false)])⟩)
        none (fun _ => true) (fun v => ["py", v.str]) false
      = ([(["py", "cpython@3.11.4"], FsNode.dir)],
          .error (.conflict ((fun v : PythonVersion => ["py", v.str])
            ⟨"cpython", ⟨3, 11, 4⟩⟩)))
    ∧ register_toolchain_windows [(["py", "cpython@3.11.4"], FsNode.dir)]
        ["usr", "bin", "python3"]
        (some ⟨true, some (Json.obj [("python_implementation", Json.str "CPython"),
          ("python_version", Json.str "3.11.4"), ("python_debug", Json.bool false)])⟩)
        none (fun _ => true) (fun v => ["py", v.str]) false true
      = ([(["py", "cpython@3.11.4"], FsNode.dir)],
          .error (.conflict ((fun v : PythonVersion => ["py", v.str])
            ⟨"cpython", ⟨3, 11, 4⟩⟩))) :=
  register_conflict_rejects_without_mutation
    [(["py", "cpython@3.11.4"], FsNode.dir)] ["usr", "bin", "python3"]
    ⟨true, some (Json.obj [("python_implementation", Json.str "CPython"),
      ("python_version", Json.str "3.11.4"), ("python_debug", Json.bool false)])⟩
    none (fun _ => true) (fun v => ["py", v.str]) false true
    ⟨"CPython", "3.11.4", false⟩ ⟨"cpython", ⟨3, 11, 4⟩⟩
    rfl (by decide) (by decide) rfl (by decide)

/-- C2, counterexample: the introspection deserializer does not require
exactly three fields.  A JSON object with a fourth, unknown field is
accepted (serde without `deny_unknown_fields` skips unknown fields), and
`register_toolchain` proceeds past parsing to a successful key derivation
instead of failing with a parse error. -/
theorem inspect_extra_fields_accepted_counterexample :
    [("python_implementation", Json.str "CPython"),
      ("python_version", Json.str "3.11.4"),
      ("python_debug", Json.bool false),
      ("build_info", Json.str "extra")].length = 4
    ∧ register_toolchain_common []
        (some ⟨true, some (Json.obj [("python_implementation", Json.str "CPython"),
          ("python_version", Json.str "3.11.4"),
          ("python_debug", Json.bool false),
          ("build_info", Json.str "extra")])⟩)
        none (fun _ => true) (fun v => ["py", v.str])
      = .ok (⟨"cpython", ⟨3, 11, 4⟩⟩, ["py", "cpython@3.11.4"]) :=
  ⟨rfl, rfl⟩

/-- C2, amended: after a successful introspection exit, `register_toolchain`
fails with a parse error exactly when the captured standard output is not a
JSON object binding each of the three expected fields
(`python_implementation`: string, `python_version`: string,
`python_debug`: boolean) exactly once — missing fields, duplicated
expected fields, or wrongly typed expected fields are rejected, while
additional unknown fields are ignored. -/
theorem register_parse_error_iff_malformed
    (fs : Fs) (output : CmdOutput) (name : Option String)
    (validate : PythonVersion → Bool) (canon : PythonVersion → FsPath)
    (hsucc : output.success = true) :
    (register_toolchain_common fs (some output) name validate canon
        = .error .parseError)
      ↔ ¬ ∃ j, output.stdout = some j ∧ well_shaped_inspect j := by
  cases hb : output.stdout.bind deserialize_inspect_info with
  | none =>
    apply iff_of_true (common_parse_fail hsucc hb)
    rintro ⟨j, hj, hw⟩
    rw [hj] at hb
    have hd : deserialize_inspect_info j = none := hb
    have hw2 := deserialize_isSome_iff.mpr hw
    rw [hd] at hw2
    cases hw2
  | some info =>
    apply iff_of_false
    · intro hres
      unfold register_toolchain_common at hres
      dsimp only at hres
      rw [if_neg (by simp [hsucc]), hb] at hres
      dsimp only at hres
      cases hp : PythonVersion.parse (derive_target_version name info) with
      | none =>
        rw [hp] at hres
        simp at hres
      | some tv =>
        rw [hp] at hres
        dsimp only at hres
        split_ifs at hres <;> simp_all
    · intro hno
      rcases Option.bind_eq_some.mp hb with ⟨j, hj, hdj⟩
      exact hno ⟨j, hj, deserialize_isSome_iff.mp (by rw [hdj]; rfl)⟩

/-- Witness for C2's amended theorem: with a well-shaped stdout the
outcome is not a parse error. -/
theorem register_parse_error_iff_malformed_witness :
    (register_toolchain_common []
        (some ⟨true, some (Json.obj [("python_implementation", Json.str "CPython"),
          ("python_version", Json.str "3.11.4"), ("python_debug", Json.bool false)])⟩)
        none (fun _ => true) (fun v => ["py", v.str])
        = .error .parseError)
      ↔ ¬ ∃ j, (some (Json.obj [("python_implementation", Json.str "CPython"),
          ("python_version", Json.str "3.11.4"), ("python_debug", Json.bool false)])
            : Option Json) = some j
          ∧ well_shaped_inspect j :=
  register_parse_error_iff_malformed []
    ⟨true, some (Json.obj [("python_implementation", Json.str "CPython"),
      ("python_version", Json.str "3.11.4"), ("python_debug", Json.bool false)])⟩
    none (fun _ => true) (fun v => ["py", v.str]) rfl

/-- C3: when introspection fails — the subprocess exits non-zero, or its
standard output does not deserialize — `register_toolchain` returns an
error and the returned filesystem state is exactly the input state: no
parent directory, link or shim has been created (both platforms). -/
theorem register_introspection_failure_no_write
    (fs : Fs) (path : FsPath) (output : CmdOutput) (name : Option String)
    (validate : PythonVersion → Bool) (canon : PythonVersion → FsPath)
    (priv wok : Bool)
    (h : output.success = false ∨ output.stdout.bind deserialize_inspect_info = none) :
    ∃ e, (e = RegError.notValidPython ∨ e = RegError.parseError)
      ∧ register_toolchain_unix fs path (some output) name validate canon priv
          = (fs, .error e)
      ∧ register_toolchain_windows fs path (some output) name validate canon priv wok
          = (fs, .error e) := by
  by_cases hs : output.success = false
  · exact ⟨.notValidPython, Or.inl rfl,
      register_unix_error (common_not_success hs),
      register_windows_error (common_not_success hs)⟩
  · have hs2 : output.success = true := by
      simp only [Bool.not_eq_false] at hs
      exact hs
    rcases h with h | h
    · exact absurd h hs
    · exact ⟨.parseError, Or.inr rfl,
        register_unix_error (common_parse_fail hs2 h),
        register_windows_error (common_parse_fail hs2 h)⟩

/-- Witness for C3: a candidate whose introspection exits non-zero is
rejected with the filesystem unchanged. -/
theorem register_introspection_failure_no_write_witness :
    ∃ e, (e = RegError.notValidPython ∨ e = RegError.parseError)
      ∧ register_toolchain_unix [] ["usr", "bin", "true"]
          (some ⟨false, none⟩) none (fun _ => true) (fun v => ["py", v.str]) false
          = ([], .error e)
      ∧ register_toolchain_windows [] ["usr", "bin", "true"]
          (some ⟨false, none⟩) none (fun _ => true) (fun v => ["py", v.str]) false true
          = ([], .error e) :=
  register_introspection_failure_no_write [] ["usr", "bin", "true"]
    ⟨false, none⟩ none (fun _ => true) (fun v => ["py", v.str]) false true
    (Or.inl rfl)

/-- C4: whenever `register_toolchain` succeeds, the key it returns renders
exactly as the derived name: with no label supplied it is the lower-cased
implementation name, followed by "-dbg" exactly when the debug flag is
set, followed by "@" and the version; with a label supplied it is
`label@version` regardless of implementation name and debug flag. -/
theorem register_returns_derived_key
    (fs : Fs) (path : FsPath) (output : CmdOutput) (name : Option String)
    (validate : PythonVersion → Bool) (canon : PythonVersion → FsPath) (priv : Bool)
    (fs2 : Fs) (info : InspectInfo) (tv : PythonVersion)
    (hinfo : output.stdout.bind deserialize_inspect_info = some info)
    (hreg : register_toolchain_unix fs path (some output) name validate canon priv
      = (fs2, .ok tv)) :
    (name = none → tv.str = to_ascii_lowercase info.python_implementation
        ++ (if info.python_debug then "-dbg" else "") ++ "@" ++ info.python_version)
    ∧ ∀ n, name = some n → tv.str = n ++ "@" ++ info.python_version := by
  obtain ⟨target, hc⟩ := register_unix_ok_elim hreg
  obtain ⟨output2, info2, hout, _, hinfo2, hparse, _, _, _⟩ := common_ok_elim hc
  have hoo : output2 = output := (Option.some.inj hout).symm
  rw [hoo] at hinfo2
  rw [hinfo2] at hinfo
  have hii : info2 = info := Option.some.inj hinfo
  rw [hii] at hparse
  have hstr := PythonVersion.parse_str hparse
  constructor
  · intro hn
    rw [hn] at hstr
    unfold derive_target_version at hstr
    dsimp only at hstr
    exact hstr
  · intro n hn
    rw [hn] at hstr
    unfold derive_target_version at hstr
    dsimp only at hstr
    exact hstr

/-- Witness for C4: a debug CPython introspection with no label registers
as `cpython-dbg@3.11.4`. -/
theorem register_returns_derived_key_witness :
    ((none : Option String) = none →
      (⟨"cpython-dbg", ⟨3, 11, 4⟩⟩ : PythonVersion).str
        = to_ascii_lowercase "CPython" ++ (if true then "-dbg" else "") ++ "@" ++ "3.11.4")
    ∧ ∀ n, (none : Option String) = some n →
      (⟨"cpython-dbg", ⟨3, 11, 4⟩⟩ : PythonVersion).str = n ++ "@" ++ "3.11.4" :=
  register_returns_derived_key [] ["usr", "bin", "python3"]
    ⟨true, some (Json.obj [("python_implementation", Json.str "CPython"),
      ("python_version", Json.str "3.11.4"), ("python_debug", Json.bool true)])⟩
    none (fun _ => true) (fun v => ["py", v.str]) false
    [(["py"], FsNode.dir),
      (["py", "cpython-dbg@3.11.4"], FsNode.symlink ["usr", "bin", "python3"])]
    ⟨"CPython", "3.11.4", true⟩ ⟨"cpython-dbg", ⟨3, 11, 4⟩⟩
    (by decide) rfl

/-- C7: removing a key whose canonical path holds neither a file nor a
directory succeeds with the informational "not installed" outcome and
mutates nothing; consequently a second `remove` of the same key right
after any successful `remove` never fails and changes nothing. -/
theorem remove_absent_noop_idempotent :
    (∀ (fs : Fs) (get_canonical_py_path : PythonVersion → FsPath) (ver : PythonVersion),
        fsIsFile fs (get_canonical_py_path ver) = false →
        fsIsDir fs (get_canonical_py_path ver) = false →
        remove fs get_canonical_py_path ver = (fs, .notInstalled))
    ∧ ∀ (fs : Fs) (get_canonical_py_path : PythonVersion → FsPath) (ver : PythonVersion)
        (fs2 : Fs) (o : RemoveOutcome),
        remove fs get_canonical_py_path ver = (fs2, o) →
        remove fs2 get_canonical_py_path ver = (fs2, .notInstalled) := by
  constructor
  · intro fs canon ver hf hd
    unfold remove
    dsimp only
    rw [if_neg (by simp [hf]), if_neg (by simp [hd])]
  · intro fs canon ver fs2 o h
    unfold remove at h
    dsimp only at h
    by_cases hf : fsIsFile fs (canon ver) = true
    · rw [if_pos hf] at h
      cases h
      have hn := fsFind_fsRemoveFile_self fs (canon ver)
      unfold remove
      dsimp only
      rw [if_neg (by simp [fsIsFile_of_find_none hn]),
        if_neg (by simp [fsIsDir_of_find_none hn])]
    · rw [if_neg hf] at h
      by_cases hd : fsIsDir fs (canon ver) = true
      · rw [if_pos hd] at h
        cases h
        have hn := fsFind_fsRemoveDirAll_self fs (canon ver)
        unfold remove
        dsimp only
        rw [if_neg (by simp [fsIsFile_of_find_none hn]),
          if_neg (by simp [fsIsDir_of_find_none hn])]
      · rw [if_neg hd] at h
        cases h
        unfold remove
        dsimp only
        rw [if_neg hf, if_neg hd]

/-- Witness for C7 at a concrete state: removing a never-installed key is
the informational no-op, and removing an installed link twice leaves the
state of the first removal untouched. -/
theorem remove_absent_noop_idempotent_witness :
    remove [] (fun v => ["py", v.str]) ⟨"cpython", ⟨3, 11, 4⟩⟩ = ([], .notInstalled)
    ∧ remove [] (fun v => ["py", v.str]) ⟨"pypy", ⟨3, 9, 0⟩⟩ = ([], .notInstalled) :=
  ⟨remove_absent_noop_idempotent.1 [] (fun v => ["py", v.str])
      ⟨"cpython", ⟨3, 11, 4⟩⟩ (by decide) (by decide),
    remove_absent_noop_idempotent.2 [(["py", "pypy@3.9.0"], FsNode.file "x")]
      (fun v => ["py", v.str]) ⟨"pypy", ⟨3, 9, 0⟩⟩ [] RemoveOutcome.removedLink
      (by decide)⟩

/-- C8: on the platform with the privilege-aware fallback (windows build),
when the symbolic-link attempt fails, a plain file whose entire contents
are the literal candidate path string is written at the canonical target,
and `register_toolchain` returns the derived key without error whenever
that fallback write succeeds. -/
theorem register_windows_fallback_writes_path
    (fs : Fs) (path : FsPath) (output : CmdOutput) (name : Option String)
    (validate : PythonVersion → Bool) (canon : PythonVersion → FsPath)
    (info : InspectInfo) (tv : PythonVersion)
    (hsucc : output.success = true)
    (hinfo : output.stdout.bind deserialize_inspect_info = some info)
    (hparse : PythonVersion.parse (derive_target_version name info) = some tv)
    (hval : validate tv = true)
    (hfree : fsFind fs (canon tv) = none) :
    ∃ fs2, register_toolchain_windows fs path (some output) name validate canon true true
        = (fs2, .ok tv)
      ∧ fsFind fs2 (canon tv) = some (.file (String.intercalate "/" path)) := by
  have hocc : (fsIsFile fs (canon tv) || fsIsDir fs (canon tv)) = false := by
    simp [fsIsFile_of_find_none hfree, fsIsDir_of_find_none hfree]
  have hc := common_ok_intro hsucc hinfo hparse hval hocc
  have hsl : symlink_file (fsCreateDirAll fs (canon tv)) true path (canon tv) = none := by
    unfold symlink_file
    rw [if_pos rfl]
  have hw : register_toolchain_windows fs path (some output) name validate canon true true
      = (fsWrite (fsCreateDirAll fs (canon tv)) (canon tv)
          (String.intercalate "/" path), .ok tv) := by
    unfold register_toolchain_windows
    rw [hc]
    dsimp only
    rw [hsl]
    rfl
  exact ⟨_, hw, fsFind_fsWrite_self _ _ _⟩

/-- Witness for C8: registering into an empty filesystem with the symlink
privilege missing writes the shim file at the canonical target. -/
theorem register_windows_fallback_writes_path_witness :
    ∃ fs2, register_toolchain_windows [] ["usr", "bin", "python3"]
        (some ⟨true, some (Json.obj [("python_implementation", Json.str "CPython"),
          ("python_version", Json.str "3.11.4"), ("python_debug", Json.bool false)])⟩)
        none (fun _ => true) (fun v => ["py", v.str]) true true
        = (fs2, .ok ⟨"cpython", ⟨3, 11, 4⟩⟩)
      ∧ fsFind fs2 ((fun v : PythonVersion => ["py", v.str]) ⟨"cpython", ⟨3, 11, 4⟩⟩)
          = some (.file (String.intercalate "/" ["usr", "bin", "python3"])) :=
  register_windows_fallback_writes_path [] ["usr", "bin", "python3"]
    ⟨true, some (Json.obj [("python_implementation", Json.str "CPython"),
      ("python_version", Json.str "3.11.4"), ("python_debug", Json.bool false)])⟩
    none (fun _ => true) (fun v => ["py", v.str])
    ⟨"CPython", "3.11.4", false⟩ ⟨"cpython", ⟨3, 11, 4⟩⟩
    rfl (by decide) (by decide) rfl (by decide)

/-- C9: a dangling symlink at a key's canonical path is classified as
absent by both operations, because the occupancy tests follow symlinks:
`remove` returns the successful "not installed" outcome and leaves the
dangling symlink in place, and the conflict check of `register_toolchain`
does not raise the conflict error for it, so registration proceeds to the
link step and fails there instead. -/
theorem dangling_symlink_classified_absent
    (fs : Fs) (get_canonical_py_path : PythonVersion → FsPath) (ver : PythonVersion)
    (t : FsPath)
    (hlink : fsFind fs (get_canonical_py_path ver) = some (.symlink t))
    (hdang : fsFind fs t = none) :
    (fsIsFile fs (get_canonical_py_path ver) = false
      ∧ fsIsDir fs (get_canonical_py_path ver) = false)
    ∧ remove fs get_canonical_py_path ver = (fs, .notInstalled)
    ∧ ∀ (path : FsPath) (output : CmdOutput) (name : Option String)
        (validate : PythonVersion → Bool) (info : InspectInfo),
        output.success = true →
        output.stdout.bind deserialize_inspect_info = some info →
        PythonVersion.parse (derive_target_version name info) = some ver →
        validate ver = true →
        (register_toolchain_unix fs path (some output) name validate
            get_canonical_py_path false).2
          = .error .linkError := by
  have hf := fsIsFile_dangling hlink hdang
  have hd := fsIsDir_dangling hlink hdang
  refine ⟨⟨hf, hd⟩, ?_, ?_⟩
  · unfold remove
    dsimp only
    rw [if_neg (by simp [hf]), if_neg (by simp [hd])]
  · intro path output name validate info hsucc hinfo hparse hval
    have hocc : (fsIsFile fs (get_canonical_py_path ver)
        || fsIsDir fs (get_canonical_py_path ver)) = false := by
      simp [hf, hd]
    have hc := common_ok_intro hsucc hinfo hparse hval hocc
    have hfind : fsFind (fsCreateDirAll fs (get_canonical_py_path ver))
        (get_canonical_py_path ver) = fsFind fs (get_canonical_py_path ver) :=
      fsFind_fsCreateDirAll (le_refl _)
    have hsl : symlink_file (fsCreateDirAll fs (get_canonical_py_path ver)) false path
        (get_canonical_py_path ver) = none := by
      unfold symlink_file
      rw [if_neg (by simp)]
      rw [if_pos (by rw [hfind, hlink]; rfl)]
    unfold register_toolchain_unix
    rw [hc]
    dsimp only
    rw [hsl]

/-- Witness for C9: a dangling symlink at the canonical path of
`cpython@3.11.4`. -/
theorem dangling_symlink_classified_absent_witness :
    (fsIsFile [(["py", "cpython@3.11.4"], FsNode.symlink ["gone"])]
        ((fun v : PythonVersion => ["py", v.str]) ⟨"cpython", ⟨3, 11, 4⟩⟩) = false
      ∧ fsIsDir [(["py", "cpython@3.11.4"], FsNode.symlink ["gone"])]
        ((fun v : PythonVersion => ["py", v.str]) ⟨"cpython", ⟨3, 11, 4⟩⟩) = false)
    ∧ remove [(["py", "cpython@3.11.4"], FsNode.symlink ["gone"])]
        (fun v => ["py", v.str]) ⟨"cpython", ⟨3, 11, 4⟩⟩
      = ([(["py", "cpython@3.11.4"], FsNode.symlink ["gone"])], .notInstalled)
    ∧ ∀ (path : FsPath) (output : CmdOutput) (name : Option String)
        (validate : PythonVersion → Bool) (info : InspectInfo),
        output.success = true →
        output.stdout.bind deserialize_inspect_info = some info →
        PythonVersion.parse (derive_target_version name info)
          = some ⟨"cpython", ⟨3, 11, 4⟩⟩ →
        validate ⟨"cpython", ⟨3, 11, 4⟩⟩ = true →
        (register_toolchain_unix [(["py", "cpython@3.11.4"], FsNode.symlink ["gone"])]
            path (some output) name validate (fun v => ["py", v.str]) false).2
          = .error .linkError :=
  dangling_symlink_classified_absent
    [(["py", "cpython@3.11.4"], FsNode.symlink ["gone"])]
    (fun v => ["py", v.str]) ⟨"cpython", ⟨3, 11, 4⟩⟩ ["gone"]
    (by decide) (by decide)

/-- The presentation sequence of `list` is sorted by the spec's order:
installed entries first, then name ascending, then version descending. -/
theorem list_toolchains_pairwise_spec_before
    (installed : List (PythonVersion × FsPath)) (downloadable : List PythonVersion)
    (inc : Bool) :
    (list_toolchains installed downloadable inc).Pairwise spec_before := by
  have hnodup := nodup_keys_toolchains_merged installed downloadable inc
  have hperm := List.mergeSort_perm (toolchains_merged installed downloadable inc) entryLe
  have hnodup2 : ((list_toolchains installed downloadable inc).map Prod.fst).Nodup := by
    unfold list_toolchains
    exact ((hperm.map Prod.fst).symm).nodup hnodup
  have hne : (list_toolchains installed downloadable inc).Pairwise
      (fun a b => a.1 ≠ b.1) := List.pairwise_map.mp hnodup2
  have hsorted : (list_toolchains installed downloadable inc).Pairwise
      (fun a b => entryLe a b = true) :=
    List.sorted_mergeSort entryLe_trans entryLe_total
      (toolchains_merged installed downloadable inc)
  exact (hsorted.and hne).imp (fun h => entryLe_of_ne_spec_before h.1 h.2)

/-- C5: for every installed map and obtainable catalog, the sequence
produced by `list` places all installed entries before all non-installed
entries and orders each group by name ascending then version descending;
in particular, installed cpython@3.11.4 and pypy@3.9.0 with obtainable
cpython@3.12.0 yield exactly the order cpython@3.11.4, pypy@3.9.0,
cpython@3.12.0. -/
theorem list_sort_order_with_example :
    (∀ (installed : List (PythonVersion × FsPath)) (downloadable : List PythonVersion)
      (inc : Bool),
      (list_toolchains installed downloadable inc).Pairwise spec_before)
    ∧ list_toolchains
        [(⟨"cpython", ⟨3, 11, 4⟩⟩, ["ins", "cp"]), (⟨"pypy", ⟨3, 9, 0⟩⟩, ["ins", "pp"])]
        [⟨"cpython", ⟨3, 12, 0⟩⟩] true
      = [(⟨"cpython", ⟨3, 11, 4⟩⟩, some ["ins", "cp"]),
          (⟨"pypy", ⟨3, 9, 0⟩⟩, some ["ins", "pp"]),
          (⟨"cpython", ⟨3, 12, 0⟩⟩, none)] := by
  refine ⟨list_toolchains_pairwise_spec_before, ?_⟩
  have hm : toolchains_merged
      [(⟨"cpython", ⟨3, 11, 4⟩⟩, ["ins", "cp"]), (⟨"pypy", ⟨3, 9, 0⟩⟩, ["ins", "pp"])]
      [⟨"cpython", ⟨3, 12, 0⟩⟩] true
      = [(⟨"cpython", ⟨3, 11, 4⟩⟩, some ["ins", "cp"]),
          (⟨"pypy", ⟨3, 9, 0⟩⟩, some ["ins", "pp"]),
          (⟨"cpython", ⟨3, 12, 0⟩⟩, none)] := by decide
  unfold list_toolchains
  rw [hm]
  apply mergeSort_entryLe_eq_of_sorted (List.Perm.refl _)
  decide

/-- C6: the merged listing contains at most one entry per key, an
installed key is never presented without its path, and every
machine-readable record carries either a `path` field (installed) or a
`downloadable := true` field (non-installed), never both and never
neither. -/
theorem list_unique_keys_and_exclusive_fields
    (installed : List (PythonVersion × FsPath)) (downloadable : List PythonVersion)
    (inc : Bool) :
    ((list_toolchains installed downloadable inc).map Prod.fst).Nodup
    ∧ (∀ (v : PythonVersion) (p : FsPath), (v, p) ∈ installed →
        ∀ e ∈ list_toolchains installed downloadable inc, e.1 = v →
          e.2.isSome = true)
    ∧ ∀ r ∈ list_json installed downloadable inc,
        (r.path.isSome = true ∧ r.downloadable = none)
        ∨ (r.path = none ∧ r.downloadable = some true) := by
  have hperm := List.mergeSort_perm (toolchains_merged installed downloadable inc) entryLe
  refine ⟨?_, ?_, ?_⟩
  · unfold list_toolchains
    exact ((hperm.map Prod.fst).symm).nodup
      (nodup_keys_toolchains_merged installed downloadable inc)
  · intro v p hin e he hv
    unfold list_toolchains at he
    exact merged_installed_has_path hin e (hperm.mem_iff.mp he) hv
  · intro r hr
    unfold list_json at hr
    rcases List.mem_map.mp hr with ⟨e, he, rfl⟩
    unfold to_list_version
    cases hv : e.2 with
    | none =>
      right
      simp [hv]
    | some q =>
      left
      simp [hv]

/-- Witness for C6 at a concrete registry state. -/
theorem list_unique_keys_and_exclusive_fields_witness :
    ((list_toolchains [(⟨"cpython", ⟨3, 11, 4⟩⟩, ["ins", "cp"])]
        [⟨"cpython", ⟨3, 12, 0⟩⟩] true).map Prod.fst).Nodup
    ∧ (∀ (v : PythonVersion) (p : FsPath),
        (v, p) ∈ [(⟨"cpython", ⟨3, 11, 4⟩⟩, ["ins", "cp"])] →
        ∀ e ∈ list_toolchains [(⟨"cpython", ⟨3, 11, 4⟩⟩, ["ins", "cp"])]
          [⟨"cpython", ⟨3, 12, 0⟩⟩] true, e.1 = v → e.2.isSome = true)
    ∧ ∀ r ∈ list_json [(⟨"cpython", ⟨3, 11, 4⟩⟩, ["ins", "cp"])]
        [⟨"cpython", ⟨3, 12, 0⟩⟩] true,
        (r.path.isSome = true ∧ r.downloadable = none)
        ∨ (r.path = none ∧ r.downloadable = some true) :=
  list_unique_keys_and_exclusive_fields
    [(⟨"cpython", ⟨3, 11, 4⟩⟩, ["ins", "cp"])] [⟨"cpython", ⟨3, 12, 0⟩⟩] true

/-- C10: the presented order of `list` does not depend on the hash-map
iteration order used to build the merged collection: sorting any
iteration order (any permutation) of the merged entries produces the
same sequence, because the sort key is a total order that separates
distinct entries. -/
theorem list_order_iteration_independent
    (installed : List (PythonVersion × FsPath)) (downloadable : List PythonVersion)
    (inc : Bool) (l : List ToolchainEntry)
    (hp : l.Perm (toolchains_merged installed downloadable inc)) :
    l.mergeSort entryLe = list_toolchains installed downloadable inc :=
  mergeSort_entryLe_perm_congr hp

/-- Witness for C10: a reversed iteration order of a two-entry merged
collection sorts to the same listing. -/
theorem list_order_iteration_independent_witness :
    [((⟨"pypy", ⟨3, 9, 0⟩⟩ : PythonVersion), (none : Option FsPath)),
      (⟨"cpython", ⟨3, 11, 4⟩⟩, some ["ins", "cp"])].mergeSort entryLe
      = list_toolchains [(⟨"cpython", ⟨3, 11, 4⟩⟩, ["ins", "cp"])]
          [⟨"pypy", ⟨3, 9, 0⟩⟩] true :=
  list_order_iteration_independent
    [(⟨"cpython", ⟨3, 11, 4⟩⟩, ["ins", "cp"])] [⟨"pypy", ⟨3, 9, 0⟩⟩] true
    [(⟨"pypy", ⟨3, 9, 0⟩⟩, none), (⟨"cpython", ⟨3, 11, 4⟩⟩, some ["ins", "cp"])]
    (by
      have hm : toolchains_merged [(⟨"cpython", ⟨3, 11, 4⟩⟩, ["ins", "cp"])]
          [⟨"pypy", ⟨3, 9, 0⟩⟩] true
          = [(⟨"cpython", ⟨3, 11, 4⟩⟩, some ["ins", "cp"]), (⟨"pypy", ⟨3, 9, 0⟩⟩, none)] :=
        by decide
      rw [hm]
      exact List.Perm.swap _ _ _)

end RyeToolchain
